/-
  Verification of the data pipeline in the LDA-on-SageMaker notebook
  (src/lda-sagemaker-demo.ipynb).

  The notebook's cells are shallowly embedded as Lean functions:
  strings are `List Char`, Python `int` values are `Int`, floats are
  modelled as exact rationals, and code that raises an exception is
  modelled as returning `none` / an error value.
-/
import Mathlib

set_option linter.unusedVariables false

/-! ### Python string and integer primitives

`splitOnChar` mirrors Python `str.split(sep)` for a one-character
separator: every occurrence of the separator splits, empty fields are
kept, and the empty string splits to `[""]`. -/

def splitOnChar (sep : Char) : List Char → List (List Char)
  | [] => [[]]
  | c :: cs =>
    match splitOnChar sep cs, c == sep with
    | r, true => [] :: r
    | [], false => [[c]]
    | t :: ts, false => (c :: t) :: ts

/-- Accumulate decimal digits, as Python `int` does; `none` on a
non-digit character. -/
def parseDigits : List Char → Nat → Option Nat
  | [], acc => some acc
  | c :: cs, acc =>
    if c.isDigit then parseDigits cs (10 * acc + (c.toNat - 48)) else none

/-- Python `int(s)` on an already-stripped string: an optional sign
followed by at least one decimal digit; raises `ValueError` (here:
`none`) otherwise. -/
def parseInt (s : List Char) : Option Int :=
  match s with
  | [] => none
  | c :: cs =>
    if c = '-' then
      if cs.isEmpty then none
      else
        match parseDigits cs 0 with
        | some n => some (-(n : Int))
        | none => none
    else if c = '+' then
      if cs.isEmpty then none
      else
        match parseDigits cs 0 with
        | some n => some ((n : Int))
        | none => none
    else
      match parseDigits (c :: cs) 0 with
      | some n => some ((n : Int))
      | none => none

/-- NumPy single-axis index resolution for an axis of length `n`: an
index `k` with `0 ≤ k < n` is used as is, a negative `k` with
`-n ≤ k` wraps to `n + k`, and anything else raises `IndexError`
(here: `none`). -/
def pyIndex (n : Nat) (k : Int) : Option Nat :=
  if 0 ≤ k ∧ k < (n : Int) then some k.toNat
  else if -(n : Int) ≤ k ∧ k < 0 then some (((n : Int) + k).toNat)
  else none

/-! ### CorpusParser

Embedding of the notebook cell

    bags_of_words = np.zeros([len(word_counts), len(word)])
    for row in range(len(word_counts)):
        for col in word_counts[row].split(','):
            bags_of_words[row, int(col.split(':')[0])-1] = int(col.split(':')[1])

Python evaluates the right-hand side first, so for each token the
count field `parts[1]` is converted before the index field
`parts[0]`; a token without a `:` raises `IndexError` when `parts[1]`
is accessed. All raised exceptions are modelled as `none`. -/

/-- The effect of one `index:count` token on a row of width `vocab`:
`some (column, count)` on success, `none` when the Python statement
would raise (`IndexError` on a missing field or out-of-range index,
`ValueError` on a non-integer field). -/
def tokenAction (vocab : Nat) (tok : List Char) : Option (Nat × Int) :=
  match splitOnChar ':' tok with
  | a :: b :: _ =>
    match parseInt b with
    | none => none
    | some c =>
      match parseInt a with
      | none => none
      | some i =>
        match pyIndex vocab (i - 1) with
        | none => none
        | some j => some (j, c)
  | _ => none

/-- One iteration of the inner loop: write the token's count into the
row, or fail. -/
def applyToken (vocab : Nat) (r : List Int) (tok : List Char) : Option (List Int) :=
  match tokenAction vocab tok with
  | none => none
  | some jc => some (r.set jc.1 jc.2)

/-- Parse one corpus line into a dense row of width `vocab`. -/
def parseLine (vocab : Nat) (line : List Char) : Option (List Int) :=
  (splitOnChar ',' line).foldlM (applyToken vocab) (List.replicate vocab 0)

/-- Parse the whole corpus: one dense row per input line; the first
raising token aborts the computation. -/
def bagsOfWords (vocab : Nat) (lines : List (List Char)) : Option (List (List Int)) :=
  lines.mapM (parseLine vocab)

/-- The two integer fields of a token, read with the same lexical
functions the parser uses (`splitOnChar`, `parseInt`); used to state
what a token textually encodes. -/
def tokenFields (tok : List Char) : Option (Int × Int) :=
  match splitOnChar ':' tok with
  | a :: b :: _ =>
    match parseInt a, parseInt b with
    | some i, some c => some (i, c)
    | _, _ => none
  | _ => none

/-- `line` is the textual encoding of the sparse document `doc`:
its comma-separated tokens encode exactly the (index, count) pairs of
`doc`, in order. -/
def LineEncodes (line : List Char) (doc : List (Int × Int)) : Prop :=
  (splitOnChar ',' line).map tokenFields = doc.map some

/-- A sparse document is valid for vocabulary size `vocab` when its
1-indexed indices lie in `[1, vocab]` and are pairwise distinct. -/
def ValidDoc (vocab : Nat) (doc : List (Int × Int)) : Prop :=
  (∀ p ∈ doc, 1 ≤ p.1 ∧ p.1 ≤ (vocab : Int)) ∧
    doc.Pairwise (fun p q => p.1 ≠ q.1)

/-- The count a sparse document gives to 0-indexed column `j`
(source index `j+1`), defaulting to 0 for unmentioned columns. -/
def docCell (doc : List (Int × Int)) (j : Nat) : Int :=
  match doc.find? (fun p => p.1 == (j : Int) + 1) with
  | some p => p.2
  | none => 0

/-- The dense writes of a sparse document, in order, over a start row. -/
def writeAll (doc : List (Int × Int)) (r : List Int) : List Int :=
  doc.foldl (fun r p => r.set (p.1 - 1).toNat p.2) r

/-! ### DatasetSplitter

Embedding of the notebook cell

    nbags_of_words = min(bags_of_words.shape[0], 10_000)
    nbags_of_words_training = int(0.95*nbags_of_words)
    nbags_of_words_test = nbags_of_words - nbags_of_words_training
    bags_of_words_training = bags_of_words[:nbags_of_words_training]
    bags_of_words_test = bags_of_words[nbags_of_words_training:nbags_of_words]

with the cap and the fraction generalised to parameters; `0.95` is
modelled as the exact rational `19/20`. -/

/-- Python `int()` applied to a (real-valued) number: truncation
toward zero. -/
def intTrunc (q : ℚ) : Int :=
  if 0 ≤ q then ⌊q⌋ else -⌊-q⌋

/-- `nbags_of_words_training`: the cap is applied first, then the
fraction, truncated to an integer. -/
def nTrainOf (total cap : Nat) (frac : ℚ) : Nat :=
  (intTrunc (frac * ((min total cap : Nat) : ℚ))).toNat

/-- The train/test split: first `nTrainOf` rows train, rows from
there up to the cap test (Python slices clamp, as `take`/`drop` do). -/
def splitRows (rows : List (List Int)) (cap : Nat) (frac : ℚ) :
    List (List Int) × List (List Int) :=
  let n := min rows.length cap
  let tr := nTrainOf rows.length cap frac
  (rows.take tr, (rows.take n).drop tr)

/-! ### TrainingJobOrchestrator

Embedding of the training cells: the hyperparameter record passed to
`lda.set_hyperparameters`, the fixed sequence of submission steps, and
the `try/except RuntimeError` wrapper around `lda.fit`. -/

structure Hyperparameters where
  num_topics : Nat
  feature_dim : Nat
  mini_batch_size : Nat
  alpha0 : ℚ
deriving DecidableEq

/-- The hyperparameters and training rows the notebook submits:
`mini_batch_size` is set to `nbags_of_words_training` (cap 10000,
fraction 0.95, `ntopics = 10`, `alpha0 = 1.0`). -/
def pipelineSubmission (vocab : Nat) (rows : List (List Int)) :
    Hyperparameters × List (List Int) :=
  (⟨10, vocab, nTrainOf rows.length 10000 (0.95 : ℚ), 1⟩,
    (splitRows rows 10000 (0.95 : ℚ)).1)

/-- The observable steps of the submission cells, in source order. -/
inductive PipelineEvent where
  | serializeRecords (rowCount : Nat)
  | uploadToStorage
  | createEstimator
  | setHyperparameters (hp : Hyperparameters)
  | startTrainingJob
  | raiseConfigurationError
deriving DecidableEq

/-- The submission trace of the notebook: serialize, upload to S3,
build the estimator, store the hyperparameters, start the training
job. No step inspects `hp` against the data; there is no validation
branch. -/
def submissionTrace (hp : Hyperparameters) (trainingRows : List (List Int)) :
    List PipelineEvent :=
  [PipelineEvent.serializeRecords trainingRows.length,
   PipelineEvent.uploadToStorage,
   PipelineEvent.createEstimator,
   PipelineEvent.setHyperparameters hp,
   PipelineEvent.startTrainingJob]

/-- Terminal outcome reported by the remote provider for `lda.fit`. -/
inductive TrainingOutcome where
  | completed
  | failed (message : String)
deriving DecidableEq

/-- What a run of the training cell and its sequel leaves behind:
messages printed, an exception escaping the cell (stopping the
notebook run), and whether the model-download cell is reached. -/
structure NotebookRun where
  printedMessages : List String
  uncaughtError : Option String
  artifactRetrievalAttempted : Bool
deriving DecidableEq

/-- Embedding of

      try:
          lda.fit({'train': s3_train_data})
      except RuntimeError as e:
          print(e)

followed by the model-download cell: a provider failure is caught and
printed, no exception escapes, and the notebook proceeds to artifact
retrieval in either case. -/
def runTrainingAndEvaluation (outcome : TrainingOutcome) : NotebookRun :=
  match outcome with
  | TrainingOutcome.completed =>
      ⟨[], none, true⟩
  | TrainingOutcome.failed msg =>
      ⟨[msg], none, true⟩

/-! ### ModelArtifactLoader

Embedding of

    model_list = [fname for fname in os.listdir('.') if fname.startswith('model_')]
    model_fname = model_list[0]
    alpha, beta = mx.ndarray.load(model_fname)

The archive download and the MXNet decoding are external; the decoder
is passed in as a function. `model_list[0]` on an empty list raises
`IndexError` (here: `none`). -/

structure ModelParameters where
  alpha : List ℚ
  beta : List (List ℚ)
deriving DecidableEq

/-- The extracted files whose names start with `model_`. -/
def modelFileCandidates (files : List (List Char)) : List (List Char) :=
  files.filter (fun f => List.isPrefixOf ("model_".toList) f)

/-- The loader: take `model_list[0]` and decode it; no uniqueness or
shape check is performed. -/
def loadModelArtifact (files : List (List Char))
    (decode : List Char → List ℚ × List (List ℚ)) : Option ModelParameters :=
  match modelFileCandidates files with
  | [] => none
  | f :: _ => some ⟨(decode f).1, (decode f).2⟩

/-- The shape consistency the spec requires of decoded parameters:
alpha length = beta row count and every beta row has `vocab` columns. -/
def shapesConsistent (p : ModelParameters) (vocab : Nat) : Prop :=
  p.alpha.length = p.beta.length ∧ ∀ row ∈ p.beta, row.length = vocab

/-! ### RecordSerializer

Modelled from the spec: the implementation of
`numpy_to_record_serializer` lives in the SageMaker SDK and is not
part of this repository; per §4.3 the stream is a contiguous sequence
of records, one per row in order, each record self-describing its
row's data length followed by the row's numeric entries. -/

inductive StreamItem where
  | len (n : Nat)
  | val (x : ℚ)
deriving DecidableEq

/-- The record of one row: its length prefix followed by its entries. -/
def rowRecord (r : List ℚ) : List StreamItem :=
  StreamItem.len r.length :: r.map StreamItem.val

/-- Serialize a matrix: the concatenation of its row records. -/
def serializeMatrix (m : List (List ℚ)) : List StreamItem :=
  (m.map rowRecord).flatten

/-- Read `n` data items from the stream, returning them and the rest. -/
def readVals : Nat → List StreamItem → Option (List ℚ × List StreamItem)
  | 0, s => some ([], s)
  | n + 1, StreamItem.val x :: s =>
    match readVals n s with
    | some p => some (x :: p.1, p.2)
    | none => none
  | _ + 1, _ => none

/-- Deserialize up to `fuel` records: repeatedly read a length prefix
and that many data items; fail on any malformed stream. One unit of
fuel is spent per record, so the stream's length is always enough. -/
def deserializeAux : Nat → List StreamItem → Option (List (List ℚ))
  | _, [] => some []
  | 0, _ :: _ => none
  | fuel + 1, StreamItem.len n :: rest =>
    match readVals n rest with
    | none => none
    | some p =>
      match deserializeAux fuel p.2 with
      | some m => some (p.1 :: m)
      | none => none
  | _ + 1, StreamItem.val _ :: _ => none

/-- Deserialize a record stream. -/
def deserializeStream (s : List StreamItem) : Option (List (List ℚ)) :=
  deserializeAux s.length s

/-! ### InferenceClient release

Modelled from the spec: `sagemaker.Session().delete_endpoint` is SDK
and provider behaviour, not part of this repository; per §4.6,
`release(handle)` tears down the endpoint and is required to be a
success or a no-op on an already-released handle, never a fatal
error. The provider's live endpoints are modelled as a list of
endpoint names. -/

inductive ReleaseResult where
  | released
  | alreadyReleased
deriving DecidableEq

/-- Release an endpoint: remove it from the live set if present,
otherwise report a no-op; there is no fatal outcome. -/
def release (live : List String) (handle : String) :
    List String × ReleaseResult :=
  if handle ∈ live then (live.erase handle, ReleaseResult.released)
  else (live, ReleaseResult.alreadyReleased)

/-! ## Helper lemmas -/

theorem nTrainOf_le (total cap : Nat) (frac : ℚ) (h0 : 0 ≤ frac) (h1 : frac ≤ 1) :
    nTrainOf total cap frac ≤ min total cap := by
  unfold nTrainOf intTrunc
  have hq : (0 : ℚ) ≤ frac * ((min total cap : Nat) : ℚ) :=
    mul_nonneg h0 (by positivity)
  rw [if_pos hq]
  have hle : ⌊frac * ((min total cap : Nat) : ℚ)⌋ ≤ ((min total cap : Nat) : Int) := by
    have : frac * ((min total cap : Nat) : ℚ) ≤ ((min total cap : Nat) : ℚ) :=
      mul_le_of_le_one_left (by positivity) h1
    calc ⌊frac * ((min total cap : Nat) : ℚ)⌋
        ≤ ⌊((min total cap : Nat) : ℚ)⌋ := Int.floor_le_floor this
      _ = ((min total cap : Nat) : Int) := Int.floor_natCast _
  exact Int.toNat_le.mpr hle

theorem splitRows_train_length (rows : List (List Int)) (cap : Nat) (frac : ℚ)
    (h0 : 0 ≤ frac) (h1 : frac ≤ 1) :
    (splitRows rows cap frac).1.length = nTrainOf rows.length cap frac := by
  have h := nTrainOf_le rows.length cap frac h0 h1
  simp only [splitRows, List.length_take]
  omega

/-! ## C10 — the pipeline always sets `mini_batch_size` to the training
row count -/

/-- C10: on every submission the pipeline sets the `mini_batch_size`
hyperparameter equal to the number of training rows it uploads, so the
precondition `batch_size ≤ training row count` holds by construction. -/
theorem pipeline_batch_size_equals_training_rows (vocab : Nat) (rows : List (List Int)) :
    (pipelineSubmission vocab rows).1.mini_batch_size
        = (pipelineSubmission vocab rows).2.length ∧
    (pipelineSubmission vocab rows).1.mini_batch_size
        ≤ (pipelineSubmission vocab rows).2.length := by
  have h := splitRows_train_length rows 10000 (0.95 : ℚ) (by norm_num) (by norm_num)
  simp [pipelineSubmission, h]

/-! ## C6 — no pre-flight batch-size validation exists -/

/-- C6, counterexample: a submission whose `mini_batch_size` (5)
exceeds the training row count (3) raises no `ConfigurationError`; the
trace proceeds to the remote upload and the training job start. -/
theorem orchestrator_no_preflight_check_counterexample :
    (⟨10, 4, 5, 1⟩ : Hyperparameters).mini_batch_size
        > (List.replicate 3 ([] : List Int)).length ∧
    PipelineEvent.raiseConfigurationError ∉
        submissionTrace ⟨10, 4, 5, 1⟩ (List.replicate 3 ([] : List Int)) ∧
    PipelineEvent.uploadToStorage ∈
        submissionTrace ⟨10, 4, 5, 1⟩ (List.replicate 3 ([] : List Int)) := by
  refine ⟨by norm_num, by decide, by decide⟩

/-- C6, amended: the submission cells never branch on the
hyperparameters — for every hyperparameter set and training set the
trace contains no `ConfigurationError` and always reaches the remote
upload and the training job start; an oversized batch size is excluded
only because the pipeline constructs `mini_batch_size` from the
training row count itself. -/
theorem submissionTrace_never_raises_configuration_error
    (hp : Hyperparameters) (rows : List (List Int)) :
    PipelineEvent.raiseConfigurationError ∉ submissionTrace hp rows ∧
    PipelineEvent.uploadToStorage ∈ submissionTrace hp rows ∧
    PipelineEvent.startTrainingJob ∈ submissionTrace hp rows := by
  simp [submissionTrace]

/-! ## C1 — a reported training failure is caught, printed and the run
continues -/

/-- C1 (code evaluated at the failing input): when the provider
reports a training failure, the `try/except RuntimeError` cell prints
the provider message, lets no exception escape, and the notebook still
proceeds to the artifact-retrieval cell. -/
theorem training_failure_swallowed (msg : String) :
    (runTrainingAndEvaluation (TrainingOutcome.failed msg)).printedMessages = [msg] ∧
    (runTrainingAndEvaluation (TrainingOutcome.failed msg)).uncaughtError = none ∧
    (runTrainingAndEvaluation (TrainingOutcome.failed msg)).artifactRetrievalAttempted
        = true :=
  ⟨rfl, rfl, rfl⟩

/-! ## C7 — release is idempotent (spec-modelled) -/

/-- C7: releasing an endpoint twice is safe — after the first release
(on a duplicate-free live set) the second call is a no-op that leaves
the state unchanged and reports `alreadyReleased`; no fatal outcome
exists. -/
theorem release_idempotent (live : List String) (handle : String) (h : live.Nodup) :
    release (release live handle).1 handle
      = ((release live handle).1, ReleaseResult.alreadyReleased) := by
  unfold release
  by_cases hm : handle ∈ live
  · rw [if_pos hm]
    have hne : handle ∉ live.erase handle := List.Nodup.not_mem_erase h
    simp [hne]
  · simp [hm]

/-- Witness for `release_idempotent` at a concrete endpoint. -/
theorem release_idempotent_witness :
    (["endpoint-a"] : List String).Nodup ∧
    release (release ["endpoint-a"] "endpoint-a").1 "endpoint-a"
      = ((release ["endpoint-a"] "endpoint-a").1, ReleaseResult.alreadyReleased) :=
  ⟨by simp, release_idempotent ["endpoint-a"] "endpoint-a" (by simp)⟩

/-! ## C5 — the artifact loader takes the first `model_` file and
checks nothing -/

/-- C5, counterexample: with two matching parameter files in the
archive, and decoded shapes that are inconsistent (alpha length 1,
beta rows 3, beta columns 1 ≠ vocabulary size 4), the loader does not
fail: it returns the decode of the first match. -/
theorem artifactLoader_counterexample :
    (modelFileCandidates [String.toList "model_a", String.toList "model_b"]).length
        = 2 ∧
    loadModelArtifact [String.toList "model_a", String.toList "model_b"]
        (fun _ => ([1], [[1], [2], [3]]))
      = some ⟨[1], [[1], [2], [3]]⟩ ∧
    ¬ shapesConsistent ⟨[1], [[1], [2], [3]]⟩ 4 := by
  refine ⟨by decide, by decide, ?_⟩
  intro hc
  exact absurd hc.1 (by decide)

/-- C5, amended: the loader fails only when no extracted file matches
the `model_` name convention (then `model_list[0]` raises); when one
or more files match it decodes the first match and performs no
uniqueness or shape validation. -/
theorem artifactLoader_first_match_no_validation (files : List (List Char))
    (decode : List Char → List ℚ × List (List ℚ)) :
    (loadModelArtifact files decode = none ↔ modelFileCandidates files = []) ∧
    (∀ f rest, modelFileCandidates files = f :: rest →
      loadModelArtifact files decode = some ⟨(decode f).1, (decode f).2⟩) := by
  constructor
  · cases h : modelFileCandidates files <;> simp [loadModelArtifact, h]
  · intro f rest heq
    simp [loadModelArtifact, heq]

/-- Witness for `artifactLoader_first_match_no_validation` at a
concrete archive listing. -/
theorem artifactLoader_first_match_no_validation_witness :
    loadModelArtifact [String.toList "model_a"] (fun _ => ([1], [[1]]))
      = some ⟨[1], [[1]]⟩ :=
  (artifactLoader_first_match_no_validation [String.toList "model_a"]
      (fun _ => ([1], [[1]]))).2 (String.toList "model_a") [] (by decide)

/-! ## C8 — record-stream round trip (spec-modelled) -/

theorem readVals_append (r : List ℚ) (s : List StreamItem) :
    readVals r.length (r.map StreamItem.val ++ s) = some (r, s) := by
  induction r with
  | nil => rfl
  | cons x xs ih => simp [readVals, ih]

theorem serializeMatrix_length_ge (m : List (List ℚ)) :
    m.length ≤ (serializeMatrix m).length := by
  induction m with
  | nil => simp [serializeMatrix]
  | cons r rest ih =>
    have hs : serializeMatrix (r :: rest) = rowRecord r ++ serializeMatrix rest := by
      simp [serializeMatrix]
    have hr : 1 ≤ (rowRecord r).length := by simp [rowRecord]
    rw [hs, List.length_append, List.length_cons]
    omega

theorem deserializeAux_serialize (m : List (List ℚ)) :
    ∀ fuel, m.length ≤ fuel → deserializeAux fuel (serializeMatrix m) = some m := by
  induction m with
  | nil => intro fuel _; cases fuel <;> rfl
  | cons r rest ih =>
    intro fuel hf
    match fuel with
    | 0 => simp at hf
    | fuel + 1 =>
      have hs : serializeMatrix (r :: rest)
          = StreamItem.len r.length :: (r.map StreamItem.val ++ serializeMatrix rest) := by
        simp [serializeMatrix, rowRecord]
      rw [hs]
      simp only [deserializeAux, readVals_append]
      rw [ih fuel (by simpa using hf)]

/-- C8: deserializing the serialized stream reproduces the matrix
exactly (entries are exact rationals, so no floating tolerance is
needed), and the stream has one record per row, row `i` mapping to
record `i`. -/
theorem record_stream_roundtrip (m : List (List ℚ)) :
    deserializeStream (serializeMatrix m) = some m ∧
    (m.map rowRecord).length = m.length ∧
    serializeMatrix m = (m.map rowRecord).flatten :=
  ⟨deserializeAux_serialize m (serializeMatrix m).length (serializeMatrix_length_ge m),
   by simp, rfl⟩

/-! ## C3 — split counts and boundaries -/

theorem nTrainOf_eq_floor (total cap : Nat) (frac : ℚ) (h0 : 0 ≤ frac) :
    ((nTrainOf total cap frac : Nat) : Int) = ⌊frac * ((min total cap : Nat) : ℚ)⌋ := by
  unfold nTrainOf intTrunc
  have hq : (0 : ℚ) ≤ frac * ((min total cap : Nat) : ℚ) :=
    mul_nonneg h0 (by positivity)
  rw [if_pos hq]
  exact Int.toNat_of_nonneg (Int.floor_nonneg.mpr hq)

/-- C3: for every matrix, cap and train fraction (a fraction lies in
`[0, 1]`), the splitter yields `train + test = min(cap, total_rows)`
rows, the train count is `⌊fraction · min(cap, total_rows)⌋`, and the
train rows followed by the test rows are exactly the first
`min(cap, total_rows)` input rows in order. -/
theorem datasetSplitter_counts (rows : List (List Int)) (cap : Nat) (frac : ℚ)
    (h0 : 0 ≤ frac) (h1 : frac ≤ 1) :
    (splitRows rows cap frac).1.length + (splitRows rows cap frac).2.length
        = min cap rows.length ∧
    ((splitRows rows cap frac).1.length : Int)
        = ⌊frac * ((min cap rows.length : Nat) : ℚ)⌋ ∧
    (splitRows rows cap frac).1 ++ (splitRows rows cap frac).2
        = rows.take (min cap rows.length) := by
  have htr := splitRows_train_length rows cap frac h0 h1
  have hle := nTrainOf_le rows.length cap frac h0 h1
  have hfl := nTrainOf_eq_floor rows.length cap frac h0
  have hcomm : min rows.length cap = min cap rows.length := Nat.min_comm _ _
  rw [hcomm] at hle hfl
  have h2 : (splitRows rows cap frac).2.length
      = min cap rows.length - nTrainOf rows.length cap frac := by
    simp only [splitRows, List.length_drop, List.length_take]
    omega
  refine ⟨?_, ?_, ?_⟩
  · rw [htr, h2]; omega
  · rw [htr, hfl]
  · show rows.take (nTrainOf rows.length cap frac)
        ++ (rows.take (min rows.length cap)).drop (nTrainOf rows.length cap frac)
        = rows.take (min cap rows.length)
    rw [hcomm]
    have hsub : rows.take (nTrainOf rows.length cap frac)
        = (rows.take (min cap rows.length)).take (nTrainOf rows.length cap frac) := by
      rw [List.take_take, Nat.min_eq_left hle]
    rw [hsub, List.take_append_drop]

/-- Witness for `datasetSplitter_counts` at the spec scenario: 10,000
rows, cap 10,000, fraction 0.95 give 9,500 train and 500 test rows. -/
theorem datasetSplitter_counts_witness :
    (splitRows (List.replicate 10000 ([] : List Int)) 10000 (0.95 : ℚ)).1.length
        = 9500 ∧
    (splitRows (List.replicate 10000 ([] : List Int)) 10000 (0.95 : ℚ)).2.length
        = 500 := by
  obtain ⟨hsum, hfloor, -⟩ :=
    datasetSplitter_counts (List.replicate 10000 ([] : List Int)) 10000 (0.95 : ℚ)
      (by norm_num) (by norm_num)
  have hm : min 10000 (List.replicate 10000 ([] : List Int)).length = 10000 := by
    rw [List.length_replicate, Nat.min_self]
  rw [hm] at hsum hfloor
  have hq : (0.95 : ℚ) * ((10000 : Nat) : ℚ) = ((9500 : Int) : ℚ) := by norm_num
  rw [hq, Int.floor_intCast] at hfloor
  have h1 : (splitRows (List.replicate 10000 ([] : List Int)) 10000 (0.95 : ℚ)).1.length
      = 9500 := by exact_mod_cast hfloor
  exact ⟨h1, by omega⟩

/-! ## Parser lemmas for C9, C4 and C2 -/

theorem splitOnChar_no_sep (sep : Char) (l : List Char) (h : sep ∉ l) :
    splitOnChar sep l = [l] := by
  induction l with
  | nil => rfl
  | cons c cs ih =>
    have hcs : sep ∉ cs := fun hm => h (List.mem_cons_of_mem _ hm)
    have hc : (c == sep) = false := by
      rw [beq_eq_false_iff_ne]
      intro hh
      subst hh
      exact h (List.mem_cons_self _ _)
    have hr := ih hcs
    simp [splitOnChar, hr, hc]

theorem parseDigits_isDigit (s : List Char) :
    ∀ acc n, parseDigits s acc = some n → ∀ ch ∈ s, ch.isDigit = true := by
  induction s with
  | nil => intro acc n h ch hch; simp at hch
  | cons c cs ih =>
    intro acc n h ch hch
    by_cases hc : c.isDigit
    · rcases List.mem_cons.mp hch with rfl | hm
      · exact hc
      · simp only [parseDigits, if_pos hc] at h
        exact ih _ n h ch hm
    · simp only [parseDigits, if_neg hc] at h
      exact absurd h (by simp)

theorem parseInt_chars (s : List Char) (v : Int) (h : parseInt s = some v) :
    ∀ ch ∈ s, ch.isDigit = true ∨ ch = '-' ∨ ch = '+' := by
  match s with
  | [] => intro ch hch; simp at hch
  | c :: cs =>
    intro ch hch
    rw [parseInt] at h
    by_cases h1 : c = '-'
    · rw [if_pos h1] at h
      rcases List.mem_cons.mp hch with rfl | hm
      · right; left; exact h1
      · cases hemp : cs.isEmpty
        · rw [hemp] at h
          simp only [Bool.false_eq_true, if_false] at h
          cases hd : parseDigits cs 0 with
          | none => rw [hd] at h; simp at h
          | some n => left; exact parseDigits_isDigit cs 0 n hd ch hm
        · rw [hemp] at h; simp at h
    · rw [if_neg h1] at h
      by_cases h2 : c = '+'
      · rw [if_pos h2] at h
        rcases List.mem_cons.mp hch with rfl | hm
        · right; right; exact h2
        · cases hemp : cs.isEmpty
          · rw [hemp] at h
            simp only [Bool.false_eq_true, if_false] at h
            cases hd : parseDigits cs 0 with
            | none => rw [hd] at h; simp at h
            | some n => left; exact parseDigits_isDigit cs 0 n hd ch hm
          · rw [hemp] at h; simp at h
      · rw [if_neg h2] at h
        cases hd : parseDigits (c :: cs) 0 with
        | none => rw [hd] at h; simp at h
        | some n => left; exact parseDigits_isDigit (c :: cs) 0 n hd ch hch

theorem pyIndex_of_pos (n : Nat) (i : Int) (h1 : 1 ≤ i) (h2 : i ≤ (n : Int)) :
    pyIndex n (i - 1) = some (i - 1).toNat := by
  unfold pyIndex
  rw [if_pos ⟨by omega, by omega⟩]

theorem pyIndex_neg_wrap (n : Nat) (k : Int) (h1 : -(n : Int) ≤ k) (h2 : k < 0) :
    pyIndex n k = some (((n : Int) + k).toNat) := by
  unfold pyIndex
  rw [if_neg (by omega), if_pos ⟨h1, h2⟩]

theorem pyIndex_none_iff (n : Nat) (k : Int) :
    pyIndex n k = none ↔ (k < -(n : Int) ∨ (n : Int) ≤ k) := by
  unfold pyIndex
  split_ifs with h1 h2
  · simp; omega
  · simp; omega
  · simp; omega

/-- C9: a token with vocabulary index 0 (for any textual count field
that parses to `c`) does not make the parser fail: the index becomes
`-1`, NumPy wraps it, and `c` is silently written into the last column
(`vocab - 1`) of the document's row. -/
theorem index_zero_wraps_to_last_column (ct : List Char) (c : Int) (V : Nat)
    (hct : parseInt ct = some c) (hV : 1 ≤ V) :
    parseLine V ('0' :: ':' :: ct) = some ((List.replicate V 0).set (V - 1) c) := by
  have hch := parseInt_chars ct c hct
  have hcomma : ',' ∉ ct := by
    intro hm
    rcases hch ',' hm with h | h | h
    · exact absurd h (by decide)
    · exact absurd h (by decide)
    · exact absurd h (by decide)
  have hcolon : ':' ∉ ct := by
    intro hm
    rcases hch ':' hm with h | h | h
    · exact absurd h (by decide)
    · exact absurd h (by decide)
    · exact absurd h (by decide)
  have hl : splitOnChar ',' ('0' :: ':' :: ct) = ['0' :: ':' :: ct] := by
    apply splitOnChar_no_sep
    simp only [List.mem_cons]
    push_neg
    exact ⟨by decide, by decide, hcomma⟩
  have hctsplit : splitOnChar ':' ct = [ct] := splitOnChar_no_sep ':' ct hcolon
  have h2 : splitOnChar ':' (':' :: ct) = [] :: [ct] := by
    simp only [splitOnChar]
    simp
    exact hctsplit
  have ht : splitOnChar ':' ('0' :: ':' :: ct) = [['0'], ct] := by
    simp [splitOnChar, h2]
    exact hctsplit
  have hz : parseInt ['0'] = some 0 := by decide
  have hpy : pyIndex V (-1) = some (V - 1) := by
    rw [pyIndex_neg_wrap V (-1) (by omega) (by omega)]
    congr 1
    omega
  have hta : tokenAction V ('0' :: ':' :: ct) = some (V - 1, c) := by
    simp [tokenAction, ht, hct, hz, hpy]
  simp [parseLine, hl, List.foldlM, applyToken, hta]

/-- Witness for `index_zero_wraps_to_last_column`: the line `0:5`
with vocabulary size 4 parses to the row `[0, 0, 0, 5]`. -/
theorem index_zero_wraps_witness :
    parseInt ['5'] = some 5 ∧ 1 ≤ 4 ∧
    parseLine 4 ('0' :: ':' :: ['5']) = some ((List.replicate 4 0).set (4 - 1) 5) :=
  ⟨by decide, by decide, index_zero_wraps_to_last_column ['5'] 5 4 (by decide) (by decide)⟩

theorem tokenAction_none_iff (vocab : Nat) (tok : List Char) :
    tokenAction vocab tok = none ↔
      (tokenFields tok = none ∨
        ∃ i c, tokenFields tok = some (i, c) ∧ pyIndex vocab (i - 1) = none) := by
  unfold tokenAction tokenFields
  cases hs : splitOnChar ':' tok with
  | nil => simp
  | cons a tl =>
    cases tl with
    | nil => simp
    | cons b rest =>
      cases hpa : parseInt a with
      | none =>
        cases hpb : parseInt b with
        | none => simp [hpa, hpb]
        | some c => simp [hpa, hpb]
      | some i =>
        cases hpb : parseInt b with
        | none => simp [hpa, hpb]
        | some c =>
          cases hpy : pyIndex vocab (i - 1) with
          | none => simp [hpa, hpb, hpy]
          | some j => simp [hpa, hpb, hpy]

theorem foldlM_applyToken_none_iff (vocab : Nat) (toks : List (List Char)) :
    ∀ (r : List Int),
      (toks.foldlM (applyToken vocab) r = none ↔
        ∃ t ∈ toks, tokenAction vocab t = none) := by
  induction toks with
  | nil => intro r; simp [List.foldlM]
  | cons t ts ih =>
    intro r
    cases hta : tokenAction vocab t with
    | none =>
      have hL : (t :: ts).foldlM (applyToken vocab) r = none := by
        simp [List.foldlM, applyToken, hta]
      rw [hL]
      constructor
      · intro _
        exact ⟨t, List.mem_cons_self _ _, hta⟩
      · intro _
        rfl
    | some jc =>
      have hL : (t :: ts).foldlM (applyToken vocab) r
          = ts.foldlM (applyToken vocab) (r.set jc.1 jc.2) := by
        simp [List.foldlM, applyToken, hta]
      rw [hL, ih]
      constructor
      · rintro ⟨t2, ht2, h2⟩
        exact ⟨t2, List.mem_cons_of_mem _ ht2, h2⟩
      · rintro ⟨t2, ht2, h2⟩
        rcases List.mem_cons.mp ht2 with rfl | hm
        · rw [hta] at h2
          exact absurd h2 (by simp)
        · exact ⟨t2, hm, h2⟩

/-- C4, amended: the parser fails exactly when some token of the line
is malformed (fewer than two `:`-separated fields, or a non-integer
field) or its index `i` has `i - 1` outside `[-vocab, vocab)`; indices
with `i - 1` in `[-vocab, -1]` — in particular index 0 — are accepted
and wrap instead of failing. -/
theorem corpusParser_failure_characterization (vocab : Nat) (line : List Char) :
    parseLine vocab line = none ↔
      ∃ tok ∈ splitOnChar ',' line,
        (tokenFields tok = none ∨
          ∃ i c, tokenFields tok = some (i, c) ∧
            (i - 1 < -(vocab : Int) ∨ (vocab : Int) ≤ i - 1)) := by
  unfold parseLine
  rw [foldlM_applyToken_none_iff]
  apply exists_congr
  intro tok
  apply and_congr_right
  intro _
  rw [tokenAction_none_iff]
  apply or_congr_right
  apply exists_congr
  intro i
  apply exists_congr
  intro c
  apply and_congr_right
  intro _
  exact pyIndex_none_iff vocab (i - 1)

/-- C4, counterexample: the token `0:5` has index 0 outside
`[1, vocabulary_size]`, yet the parser does not fail — it builds the
matrix `[[0, 0, 0, 5]]` for vocabulary size 4. -/
theorem corpusParser_accepts_index_zero :
    tokenFields (String.toList "0:5") = some (0, 5) ∧
    ¬ (1 ≤ (0 : Int)) ∧
    bagsOfWords 4 [String.toList "0:5"] = some [[0, 0, 0, 5]] := by
  refine ⟨by decide, by decide, by decide⟩

theorem tokenFields_action (vocab : Nat) (tok : List Char) (i c : Int)
    (hf : tokenFields tok = some (i, c)) (h1 : 1 ≤ i) (h2 : i ≤ (vocab : Int)) :
    tokenAction vocab tok = some ((i - 1).toNat, c) := by
  unfold tokenFields at hf
  unfold tokenAction
  cases hs : splitOnChar ':' tok with
  | nil =>
    rw [hs] at hf
    exact absurd hf (by simp)
  | cons a tl =>
    cases tl with
    | nil =>
      rw [hs] at hf
      exact absurd hf (by simp)
    | cons b rest =>
      rw [hs] at hf
      replace hf : (match parseInt a, parseInt b with
          | some i2, some c2 => some (i2, c2)
          | _, _ => none) = some (i, c) := hf
      show (match parseInt b with
          | none => none
          | some c2 =>
            match parseInt a with
            | none => none
            | some i2 =>
              match pyIndex vocab (i2 - 1) with
              | none => none
              | some j => some (j, c2)) = some ((i - 1).toNat, c)
      cases hpa : parseInt a with
      | none =>
        rw [hpa] at hf
        exact absurd hf (by simp)
      | some i2 =>
        cases hpb : parseInt b with
        | none =>
          rw [hpa, hpb] at hf
          exact absurd hf (by simp)
        | some c2 =>
          rw [hpa, hpb] at hf
          simp only [Option.some.injEq, Prod.mk.injEq] at hf
          obtain ⟨rfl, rfl⟩ := hf
          simp [hpa, hpb, pyIndex_of_pos vocab i2 h1 h2]

theorem writeAll_length (doc : List (Int × Int)) :
    ∀ r : List Int, (writeAll doc r).length = r.length := by
  induction doc with
  | nil => intro r; rfl
  | cons p ds ih =>
    intro r
    have hstep : writeAll (p :: ds) r = writeAll ds (r.set (p.1 - 1).toNat p.2) := rfl
    rw [hstep, ih, List.length_set]

theorem foldlM_writeAll (vocab : Nat) (toks : List (List Char)) :
    ∀ (doc : List (Int × Int)) (r : List Int),
      toks.map tokenFields = doc.map some →
      (∀ p ∈ doc, 1 ≤ p.1 ∧ p.1 ≤ (vocab : Int)) →
      toks.foldlM (applyToken vocab) r = some (writeAll doc r) := by
  induction toks with
  | nil =>
    intro doc r henc hb
    cases doc with
    | nil => rfl
    | cons p ds => simp at henc
  | cons t ts ih =>
    intro doc r henc hb
    cases doc with
    | nil => simp at henc
    | cons p ds =>
      simp only [List.map_cons, List.cons.injEq] at henc
      obtain ⟨hf, hrest⟩ := henc
      have hp := hb p (List.mem_cons_self _ _)
      have hta : tokenAction vocab t = some ((p.1 - 1).toNat, p.2) := by
        apply tokenFields_action vocab t p.1 p.2 _ hp.1 hp.2
        rw [hf]
      have hL : (t :: ts).foldlM (applyToken vocab) r
          = ts.foldlM (applyToken vocab) (r.set (p.1 - 1).toNat p.2) := by
        simp [List.foldlM, applyToken, hta]
      rw [hL, ih ds _ hrest (fun q hq => hb q (List.mem_cons_of_mem _ hq))]
      rfl

theorem writeAll_get (doc : List (Int × Int)) :
    ∀ (r : List Int) (j : Nat) (hj : j < r.length),
      (∀ p ∈ doc, 1 ≤ p.1 ∧ p.1 ≤ (r.length : Int)) →
      doc.Pairwise (fun p q => p.1 ≠ q.1) →
      ∀ (hjw : j < (writeAll doc r).length),
      (writeAll doc r).get ⟨j, hjw⟩
        = (match doc.find? (fun p => p.1 == (j : Int) + 1) with
            | some p => p.2
            | none => r.get ⟨j, hj⟩) := by
  induction doc with
  | nil =>
    intro r j hj hb hnd hjw
    simp [writeAll, List.find?]
  | cons p ds ih =>
    intro r j hj hb hnd hjw
    have hp := hb p (List.mem_cons_self _ _)
    have hlen : (r.set (p.1 - 1).toNat p.2).length = r.length := List.length_set r _ _
    have hjset : j < (r.set (p.1 - 1).toNat p.2).length := by rw [hlen]; exact hj
    have hb2 : ∀ q ∈ ds, 1 ≤ q.1 ∧ q.1 ≤ ((r.set (p.1 - 1).toNat p.2).length : Int) := by
      intro q hq
      rw [hlen]
      exact hb q (List.mem_cons_of_mem _ hq)
    have hhead := (List.pairwise_cons.mp hnd).1
    have hnd2 := (List.pairwise_cons.mp hnd).2
    have hjw2 : j < (writeAll ds (r.set (p.1 - 1).toNat p.2)).length := by
      rw [writeAll_length, hlen]
      exact hj
    show (writeAll ds (r.set (p.1 - 1).toNat p.2)).get ⟨j, hjw2⟩ = _
    rw [ih (r.set (p.1 - 1).toNat p.2) j hjset hb2 hnd2 hjw2]
    by_cases hpj : p.1 = (j : Int) + 1
    · have hfind : ds.find? (fun q => q.1 == (j : Int) + 1) = none := by
        apply List.find?_eq_none.mpr
        intro q hq
        simp only [beq_eq_false_iff_ne, ne_eq, Bool.not_eq_true]
        intro hqq
        exact hhead q hq (by rw [hpj, hqq])
      have hfind2 : List.find? (fun q : Int × Int => q.1 == (j : Int) + 1) (p :: ds)
          = some p := by
        rw [List.find?_cons]
        have hb1 : (p.1 == (j : Int) + 1) = true := by
          simp only [beq_iff_eq]
          exact hpj
        rw [hb1]
      rw [hfind, hfind2]
      have hidx : (p.1 - 1).toNat = j := by omega
      subst hidx
      exact List.get_set_eq hjset
    · have hb1 : (p.1 == (j : Int) + 1) = false := by
        simp only [beq_eq_false_iff_ne, ne_eq]
        exact hpj
      have hfind2 : List.find? (fun q : Int × Int => q.1 == (j : Int) + 1) (p :: ds)
          = List.find? (fun q : Int × Int => q.1 == (j : Int) + 1) ds := by
        rw [List.find?_cons, hb1]
      rw [hfind2]
      cases hfds : ds.find? (fun q : Int × Int => q.1 == (j : Int) + 1) with
      | some q => simp [hfds]
      | none =>
        simp only [hfds]
        have hne : (p.1 - 1).toNat ≠ j := by omega
        exact List.get_set_ne hne hjset

theorem parseLine_valid (vocab : Nat) (line : List Char) (doc : List (Int × Int))
    (henc : LineEncodes line doc) (hval : ValidDoc vocab doc) :
    parseLine vocab line = some ((List.range vocab).map (docCell doc)) := by
  unfold parseLine
  rw [foldlM_writeAll vocab (splitOnChar ',' line) doc (List.replicate vocab 0) henc hval.1]
  congr 1
  have hlw : (writeAll doc (List.replicate vocab (0 : Int))).length = vocab := by
    rw [writeAll_length, List.length_replicate]
  apply List.ext_get
  · rw [hlw, List.length_map, List.length_range]
  · intro j h1 h2
    have hj : j < (List.replicate vocab (0 : Int)).length := by
      rw [List.length_replicate]
      rw [hlw] at h1
      exact h1
    have hbr : ∀ p ∈ doc, 1 ≤ p.1 ∧ p.1 ≤ ((List.replicate vocab (0 : Int)).length : Int) := by
      intro p hp
      rw [List.length_replicate]
      exact hval.1 p hp
    rw [writeAll_get doc (List.replicate vocab 0) j hj hbr hval.2 h1]
    simp only [List.get_eq_getElem, List.getElem_map, List.getElem_range,
      List.getElem_replicate]
    unfold docCell
    rfl

/-- C2: for every valid sparse corpus input (each line a
comma-separated list of `index:count` tokens whose unique 1-indexed
indices lie in `[1, vocab]`), the output matrix row for document `i`
has cell `j` equal to the count given for index `j + 1`, and 0 in
every unmentioned cell. -/
theorem corpusParser_valid_cells (vocab : Nat) (lines : List (List Char))
    (docs : List (List (Int × Int)))
    (henc : List.Forall₂ LineEncodes lines docs)
    (hval : ∀ doc ∈ docs, ValidDoc vocab doc) :
    bagsOfWords vocab lines
      = some (docs.map (fun doc => (List.range vocab).map (docCell doc))) := by
  induction henc with
  | nil => rfl
  | @cons l doc ls ds hld hrest ih =>
    have hl := parseLine_valid vocab l doc hld (hval doc (List.mem_cons_self _ _))
    have hr := ih (fun d hd => hval d (List.mem_cons_of_mem _ hd))
    simp only [bagsOfWords] at hr ⊢
    rw [List.mapM_cons, hl, hr]
    simp

/-- Witness for `corpusParser_valid_cells`: the corpus `1:3,2:1`
with vocabulary size 4 yields the matrix row `[3, 1, 0, 0]`. -/
theorem corpusParser_valid_cells_witness :
    List.Forall₂ LineEncodes [String.toList "1:3,2:1"] [[((1 : Int), (3 : Int)), (2, 1)]] ∧
    (∀ doc ∈ [[((1 : Int), (3 : Int)), (2, 1)]], ValidDoc 4 doc) ∧
    bagsOfWords 4 [String.toList "1:3,2:1"]
      = some ([[((1 : Int), (3 : Int)), (2, 1)]].map
          (fun doc => (List.range 4).map (docCell doc))) ∧
    ([[((1 : Int), (3 : Int)), (2, 1)]].map
        (fun doc => (List.range 4).map (docCell doc))) = [[3, 1, 0, 0]] := by
  have h1 : List.Forall₂ LineEncodes [String.toList "1:3,2:1"]
      [[((1 : Int), (3 : Int)), (2, 1)]] :=
    List.Forall₂.cons (by unfold LineEncodes; decide) List.Forall₂.nil
  have h2 : ∀ doc ∈ [[((1 : Int), (3 : Int)), (2, 1)]], ValidDoc 4 doc := by
    intro doc hd
    rw [List.mem_singleton] at hd
    subst hd
    unfold ValidDoc
    exact ⟨by decide, by decide⟩
  exact ⟨h1, h2, corpusParser_valid_cells 4 _ _ h1 h2, by decide⟩
